import Mathlib

/-!
Verification of the convex-hull based continuum-removal core of the
spectral matching tool (`src/my_module.py`).

The embedding works over `ℚ` (exact rational arithmetic standing in for the
source's float arithmetic).  Sequences are Lean lists, the numpy arrays of
the source become lists of pairs, and the `ValueError` raise sites of the
source become the constructors of an explicit error type, following the
spec's error taxonomy (`ShapeError` for the length-mismatch raise,
`SizeError` for the size raise, `UnsupportedTypeError` for the
unsupported-continuum-type raise).
-/

namespace SpectralMatching

/-- A point of the spectrum: an `(x, y)` pair. -/
abbrev Point := ℚ × ℚ

/-- Embeds `left_turn_for_convex_hull` (my_module.py lines 13-31):
`slope1 = (y2-y1)/(x2-x1)`, `slope2 = (y3-y2)/(x3-x2)`, returns
`slope2 > slope1`. -/
def left_turn_for_convex_hull (x1 y1 x2 y2 x3 y3 : ℚ) : Bool :=
  let slope1 := (y2 - y1) / (x2 - x1)
  let slope2 := (y3 - y2) / (x3 - x2)
  decide (slope1 < slope2)

/-- The pop condition of the upper hull loop: applied to the last-but-one
hull point `b`, the last hull point `a`, and the upcoming point `p`. -/
def upperPopCond (b a p : Point) : Bool :=
  left_turn_for_convex_hull b.1 b.2 a.1 a.2 p.1 p.2

/-- The pop condition of the lower hull loop (`not left_turn_...`). -/
def lowerPopCond (b a p : Point) : Bool :=
  ! upperPopCond b a p

/-- The inner `while` loop of the hull builders: the stack is kept reversed
(head = most recently pushed hull point).  While the stack holds at least
two points and the pop condition fires on (last-but-one, last, upcoming),
drop the last point. -/
def hullPop (cond : Point → Point → Point → Bool) (p : Point) :
    List Point → List Point
  | a :: b :: t => if cond b a p then hullPop cond p (b :: t) else a :: b :: t
  | s => s

/-- One iteration of the `for i in range(2, n)` loop: run the `while` loop,
then push the upcoming point. -/
def hullStep (cond : Point → Point → Point → Bool) (s : List Point)
    (p : Point) : List Point :=
  p :: hullPop cond p s

/-- The `for` loop over the remaining points. -/
def hullFold (cond : Point → Point → Point → Bool) (s : List Point)
    (pts : List Point) : List Point :=
  pts.foldl (hullStep cond) s

/-- The whole hull computation on the point list: seed the stack with the
first two points, fold over the rest, and un-reverse the stack.  (The
fallback branch is unreachable under the callers' size check.) -/
def hullRun (cond : Point → Point → Point → Bool) : List Point → List Point
  | p0 :: p1 :: rest => (hullFold cond [p1, p0] rest).reverse
  | l => l

/-- The error taxonomy of the spec, naming the three raise sites of the
source. -/
inductive SpecError
  | ShapeError
  | SizeError
  | UnsupportedTypeError
deriving DecidableEq, Repr

/-- Embeds `upper_convex_hull` (my_module.py lines 35-75): length checks in
source order, then the monotone-chain loop with the left-turn pop
condition. -/
def upper_convex_hull (x y : List ℚ) :
    Except SpecError (List ℚ × List ℚ) :=
  if x.length ≠ y.length then .error .ShapeError
  else if x.length ≤ 2 then .error .SizeError
  else
    let hull := hullRun upperPopCond (x.zip y)
    .ok (hull.map Prod.fst, hull.map Prod.snd)

/-- Embeds `lower_convex_hull` (my_module.py lines 79-113): identical to the
upper builder except the pop condition is negated. -/
def lower_convex_hull (x y : List ℚ) :
    Except SpecError (List ℚ × List ℚ) :=
  if x.length ≠ y.length then .error .ShapeError
  else if x.length ≤ 2 then .error .SizeError
  else
    let hull := hullRun lowerPopCond (x.zip y)
    .ok (hull.map Prod.fst, hull.map Prod.snd)

/-- Embeds `numpy.interp xv xp fp` on a list of `(xp, fp)` pairs with `xp`
ascending: clamp to the first value left of the range, to the last value
right of the range, and linearly interpolate on the bracketing segment
otherwise.  (`numpy.interp` on an empty table is an error; `0` here is a
junk value never reached by the pipeline.) -/
def interp (xv : ℚ) : List Point → ℚ
  | [] => 0
  | [p] => p.2
  | p1 :: p2 :: t =>
    if xv ≤ p1.1 then p1.2
    else if xv ≤ p2.1 then
      p1.2 + (p2.2 - p1.2) * (xv - p1.1) / (p2.1 - p1.1)
    else interp xv (p2 :: t)

/-- The boolean windowing mask of `continuum_removal`:
`flag = (x_min <= x) * (x <= x_max)` applied to the zipped spectrum, with
`x_min = left_inner_x` and `x_max = right_inner_x`. -/
def windowFilter (x_min x_max : ℚ) (x y : List ℚ) : List Point :=
  (x.zip y).filter fun p => decide (x_min ≤ p.1) && decide (p.1 ≤ x_max)

/-- Embeds `continuum_removal` (my_module.py lines 117-154): for type
`"uh"`, window to `left_inner_x <= x <= right_inner_x` (the outer bounds
are accepted but unused), build the upper hull of the window, interpolate
it back onto the windowed grid (`np.interp`), and divide.  Any other type
raises. -/
def continuum_removal (x y : List ℚ) (continuum_type : String)
    (left_outer_x left_inner_x right_inner_x right_outer_x : ℚ) :
    Except SpecError (List ℚ × List ℚ × List ℚ) :=
  if continuum_type = "uh" then
    match upper_convex_hull
        ((windowFilter left_inner_x right_inner_x x y).map Prod.fst)
        ((windowFilter left_inner_x right_inner_x x y).map Prod.snd) with
    | .error e => .error e
    | .ok (hullx, hully) =>
      .ok ((windowFilter left_inner_x right_inner_x x y).map Prod.fst,
        (((windowFilter left_inner_x right_inner_x x y).map Prod.snd).zip
          (((windowFilter left_inner_x right_inner_x x y).map Prod.fst).map
            fun xi => interp xi (hullx.zip hully))).map
          (fun p => p.1 / p.2),
        ((windowFilter left_inner_x right_inner_x x y).map Prod.fst).map
          fun xi => interp xi (hullx.zip hully))
  else .error .UnsupportedTypeError

/-! ## Helper lemmas -/

/-- The upper hull builder only ever reports the two structural errors. -/
theorem upper_convex_hull_ne_unsupported (x y : List ℚ) :
    upper_convex_hull x y ≠ .error .UnsupportedTypeError := by
  unfold upper_convex_hull
  split_ifs <;> simp

/-- `hullPop` only discards points from the top of the stack: the result is
a suffix of the input stack. -/
theorem hullPop_suffix (cond : Point → Point → Point → Bool) (p : Point) :
    ∀ s : List Point, hullPop cond p s <:+ s
  | [] => by simp [hullPop]
  | [a] => by simp [hullPop]
  | a :: b :: t => by
    rw [hullPop]
    split
    · exact (hullPop_suffix cond p (b :: t)).trans (List.suffix_cons a (b :: t))
    · exact List.suffix_refl _

/-- The `while` loop never empties a nonempty stack (it needs two points
to fire). -/
theorem hullPop_ne_nil (cond : Point → Point → Point → Bool) (p : Point) :
    ∀ s : List Point, s ≠ [] → hullPop cond p s ≠ []
  | [], h => absurd rfl h
  | [a], _ => by simp [hullPop]
  | a :: b :: t, _ => by
    rw [hullPop]
    split
    · exact hullPop_ne_nil cond p (b :: t) (by simp)
    · simp

theorem hullPop_length_le (cond : Point → Point → Point → Bool) (p : Point)
    (s : List Point) : (hullPop cond p s).length ≤ s.length :=
  (hullPop_suffix cond p s).sublist.length_le

theorem hullPop_length_pos (cond : Point → Point → Point → Bool) (p : Point)
    (s : List Point) (h : s ≠ []) : 1 ≤ (hullPop cond p s).length := by
  have := hullPop_ne_nil cond p s h
  cases hh : hullPop cond p s with
  | nil => exact absurd hh this
  | cons a t => simp

/-- A nonempty suffix keeps the bottom (last) element. -/
theorem suffix_getLast_eq {s t : List Point} (h : s <:+ t) (hs : s ≠ []) :
    s.getLast? = t.getLast? := by
  obtain ⟨u, rfl⟩ := h
  exact (List.getLast?_append_of_ne_nil u hs).symm

/-- The bottom of the stack survives one loop iteration. -/
theorem hullStep_getLast (cond : Point → Point → Point → Bool)
    (s : List Point) (p : Point) (h : s ≠ []) :
    (hullStep cond s p).getLast? = s.getLast? := by
  unfold hullStep
  have hne := hullPop_ne_nil cond p s h
  cases hh : hullPop cond p s with
  | nil => exact absurd hh hne
  | cons a t =>
    rw [List.getLast?_cons_cons, ← hh]
    exact suffix_getLast_eq (hullPop_suffix cond p s) hne

/-- The bottom of the stack survives the whole `for` loop. -/
theorem hullFold_getLast (cond : Point → Point → Point → Bool) :
    ∀ (pts s : List Point), s ≠ [] →
      (hullFold cond s pts).getLast? = s.getLast?
  | [], s, _ => rfl
  | p :: rest, s, h => by
    show (hullFold cond (hullStep cond s p) rest).getLast? = s.getLast?
    rw [hullFold_getLast cond rest (hullStep cond s p) (by simp [hullStep]),
      hullStep_getLast cond s p h]

/-- After processing at least one point, the top of the stack is the last
point processed. -/
theorem hullFold_head (cond : Point → Point → Point → Bool) :
    ∀ (pts s : List Point), pts ≠ [] →
      (hullFold cond s pts).head? = pts.getLast?
  | [], _, h => absurd rfl h
  | [p], s, _ => by
    show (hullStep cond s p).head? = some p
    rfl
  | p :: q :: rest, s, _ => by
    show (hullFold cond (hullStep cond s p) (q :: rest)).head? =
      (p :: q :: rest).getLast?
    rw [hullFold_head cond (q :: rest) (hullStep cond s p) (by simp),
      List.getLast?_cons_cons]

/-- The stack never empties during the `for` loop. -/
theorem hullFold_ne_nil (cond : Point → Point → Point → Bool) :
    ∀ (pts s : List Point), s ≠ [] → hullFold cond s pts ≠ []
  | [], _, h => h
  | p :: rest, s, _ =>
    hullFold_ne_nil cond rest (hullStep cond s p) (by simp [hullStep])

/-- The hull chain produced by the loop is a subsequence of the seed chain
followed by the processed points. -/
theorem hullFold_reverse_sublist (cond : Point → Point → Point → Bool) :
    ∀ (pts s : List Point),
      List.Sublist (hullFold cond s pts).reverse (s.reverse ++ pts)
  | [], s => by simp [hullFold]
  | p :: rest, s => by
    show List.Sublist (hullFold cond (hullStep cond s p) rest).reverse
      (s.reverse ++ p :: rest)
    refine (hullFold_reverse_sublist cond rest (hullStep cond s p)).trans ?_
    have hpop : List.Sublist (hullPop cond p s).reverse s.reverse :=
      (List.reverse_prefix.mpr (hullPop_suffix cond p s)).sublist
    have hstep : List.Sublist (hullStep cond s p).reverse (s.reverse ++ [p]) := by
      unfold hullStep
      rw [List.reverse_cons]
      exact hpop.append (List.Sublist.refl [p])
    have hfin : List.Sublist ((hullStep cond s p).reverse ++ rest)
        ((s.reverse ++ [p]) ++ rest) := hstep.append (List.Sublist.refl rest)
    simpa using hfin

/-- Size bound: each iteration grows the stack by at most one point. -/
theorem hullFold_length_le (cond : Point → Point → Point → Bool) :
    ∀ (pts s : List Point),
      (hullFold cond s pts).length ≤ s.length + pts.length
  | [], s => by simp [hullFold]
  | p :: rest, s => by
    show (hullFold cond (hullStep cond s p) rest).length ≤
      s.length + (p :: rest).length
    refine (hullFold_length_le cond rest (hullStep cond s p)).trans ?_
    have : (hullStep cond s p).length ≤ s.length + 1 := by
      simp only [hullStep, List.length_cons]
      exact Nat.add_le_add_right (hullPop_length_le cond p s) 1
    simp only [List.length_cons]
    omega

/-- Size bound: the stack always keeps at least two points once seeded with
two. -/
theorem hullFold_length_ge_two (cond : Point → Point → Point → Bool) :
    ∀ (pts s : List Point), 2 ≤ s.length →
      2 ≤ (hullFold cond s pts).length
  | [], _, h => h
  | p :: rest, s, h => by
    show 2 ≤ (hullFold cond (hullStep cond s p) rest).length
    refine hullFold_length_ge_two cond rest (hullStep cond s p) ?_
    have : 1 ≤ (hullPop cond p s).length :=
      hullPop_length_pos cond p s (by intro hnil; rw [hnil] at h; simp at h)
    simp only [hullStep, List.length_cons]
    omega

/-- Projecting the first components out of a filtered zip of equal-length
lists is the same as filtering the first list. -/
theorem map_fst_zip_filter (x y : List ℚ) (p : ℚ → Bool)
    (h : x.length = y.length) :
    ((x.zip y).filter (fun q => p q.1)).map Prod.fst = x.filter p := by
  have h1 : (x.zip y).map Prod.fst = x := List.map_fst_zip x y (le_of_eq h)
  have h2 : ((x.zip y).map Prod.fst).filter p =
      ((x.zip y).filter (fun q => p q.1)).map Prod.fst := by
    rw [List.filter_map]
    rfl
  rw [← h2, h1]

/-- The whole hull chain is a subsequence of the input point list. -/
theorem hullRun_sublist (cond : Point → Point → Point → Bool)
    (pts : List Point) : List.Sublist (hullRun cond pts) pts := by
  match pts with
  | [] => simp [hullRun]
  | [p0] => simp [hullRun]
  | p0 :: p1 :: rest =>
    show List.Sublist (hullFold cond [p1, p0] rest).reverse (p0 :: p1 :: rest)
    have h := hullFold_reverse_sublist cond rest [p1, p0]
    simpa using h

/-- The hull chain starts at the first input point and ends at the last
input point. -/
theorem hullRun_head_getLast (cond : Point → Point → Point → Bool)
    (pts : List Point) (h : 2 ≤ pts.length) :
    (hullRun cond pts).head? = pts.head? ∧
    (hullRun cond pts).getLast? = pts.getLast? := by
  match pts with
  | [] => simp at h
  | [p0] => simp at h
  | p0 :: p1 :: rest =>
    constructor
    · show (hullFold cond [p1, p0] rest).reverse.head? = some p0
      rw [List.head?_reverse, hullFold_getLast cond rest [p1, p0] (by simp)]
      rfl
    · show (hullFold cond [p1, p0] rest).reverse.getLast? =
        (p0 :: p1 :: rest).getLast?
      rw [List.getLast?_reverse]
      match rest with
      | [] => rfl
      | r :: rs =>
        rw [hullFold_head cond (r :: rs) [p1, p0] (by simp),
          List.getLast?_cons_cons, List.getLast?_cons_cons]

/-- The hull chain length is bounded below by 2 and above by the input
length. -/
theorem hullRun_length_bounds (cond : Point → Point → Point → Bool)
    (pts : List Point) (h : 2 ≤ pts.length) :
    2 ≤ (hullRun cond pts).length ∧ (hullRun cond pts).length ≤ pts.length := by
  match pts with
  | [] => simp at h
  | [p0] => simp at h
  | p0 :: p1 :: rest =>
    show 2 ≤ (hullFold cond [p1, p0] rest).reverse.length ∧
      (hullFold cond [p1, p0] rest).reverse.length ≤ (p0 :: p1 :: rest).length
    rw [List.length_reverse]
    refine ⟨hullFold_length_ge_two cond rest [p1, p0] (by simp), ?_⟩
    have := hullFold_length_le cond rest [p1, p0]
    simp only [List.length_cons, List.length_nil] at this ⊢
    omega

/-! ## Interpolation lemmas for the envelope property -/

/-- Under ascending x values, the strict left-turn predicate is the strict
cross-product test. -/
theorem upperPopCond_eq_true_iff (b a p : Point) (hba : b.1 < a.1)
    (hap : a.1 < p.1) :
    upperPopCond b a p = true ↔
      (a.2 - b.2) * (p.1 - a.1) < (p.2 - a.2) * (a.1 - b.1) := by
  unfold upperPopCond left_turn_for_convex_hull
  rw [decide_eq_true_iff]
  rw [div_lt_div_iff₀ (by linarith) (by linarith)]

/-- Values of `interp` only depend on the chain up to the last point at or
beyond the query. -/
theorem interp_left_part (xv : ℚ) :
    ∀ (l r : List Point) (b : Point), l.getLast? = some b → xv ≤ b.1 →
      interp xv (l ++ r) = interp xv l
  | [], _, b, hb, _ => by simp at hb
  | [p], r, b, hb, hxv => by
    have hpb : p = b := by simpa using hb
    cases r with
    | nil => simp
    | cons c r2 =>
      show interp xv (p :: c :: r2) = interp xv [p]
      simp only [interp]
      rw [if_pos (hpb ▸ hxv : xv ≤ p.1)]
  | p1 :: p2 :: t, r, b, hb, hxv => by
    have hb2 : (p2 :: t).getLast? = some b := by
      rw [← hb, List.getLast?_cons_cons]
    show interp xv (p1 :: p2 :: (t ++ r)) = interp xv (p1 :: p2 :: t)
    simp only [interp]
    split_ifs with h1 h2
    · rfl
    · rfl
    · exact interp_left_part xv (p2 :: t) r b hb2 hxv

/-- `interp` skips chain points strictly left of the query. -/
theorem interp_skip (xv : ℚ) :
    ∀ (l : List Point) (b : Point) (r : List Point),
      (∀ p ∈ l, p.1 < xv) → b.1 < xv →
      interp xv (l ++ b :: r) = interp xv (b :: r)
  | [], _, _, _, _ => rfl
  | [p1], b, r, hl, hb => by
    show interp xv (p1 :: b :: r) = interp xv (b :: r)
    have hp1 : p1.1 < xv := hl p1 (by simp)
    simp only [interp]
    rw [if_neg (by linarith), if_neg (by linarith)]
  | p1 :: p2 :: t, b, r, hl, hb => by
    have hp1 : p1.1 < xv := hl p1 (by simp)
    have hp2 : p2.1 < xv := hl p2 (by simp)
    show interp xv (p1 :: p2 :: (t ++ b :: r)) = interp xv (b :: r)
    simp only [interp]
    rw [if_neg (by linarith), if_neg (by linarith)]
    exact interp_skip xv (p2 :: t) b r (fun p hp => hl p (by simp [hp])) hb

/-- `interp` evaluated exactly at the rightmost chain point returns its
value. -/
theorem interp_getLast :
    ∀ (l : List Point) (q : Point), (∀ p ∈ l, p.1 < q.1) →
      interp q.1 (l ++ [q]) = q.2
  | [], q, _ => rfl
  | [p1], q, hl => by
    have hp1 : p1.1 < q.1 := hl p1 (by simp)
    show interp q.1 (p1 :: [q]) = q.2
    simp only [interp]
    rw [if_neg (by linarith), if_pos le_rfl,
      mul_div_assoc, div_self (by linarith), mul_one]
    ring
  | p1 :: p2 :: t, q, hl => by
    have hp1 : p1.1 < q.1 := hl p1 (by simp)
    have hp2 : p2.1 < q.1 := hl p2 (by simp)
    show interp q.1 (p1 :: p2 :: (t ++ [q])) = q.2
    simp only [interp]
    rw [if_neg (by linarith), if_neg (by linarith)]
    exact interp_getLast (p2 :: t) q (fun p hp => hl p (by simp [hp]))

/-- Dropping the middle point of a strict left turn can only raise the
interpolated chain: the two-point chain `[b, q]` dominates the three-point
chain `[b, a, q]` everywhere when the turn at `a` is a strict left turn. -/
theorem interp_three_le_two (b a q : Point) (xv : ℚ) (hba : b.1 < a.1)
    (haq : a.1 < q.1)
    (hcross : (a.2 - b.2) * (q.1 - a.1) < (q.2 - a.2) * (a.1 - b.1)) :
    interp xv [b, a, q] ≤ interp xv [b, q] := by
  have h1 : (0:ℚ) < a.1 - b.1 := by linarith
  have h2 : (0:ℚ) < q.1 - b.1 := by linarith
  have h3 : (0:ℚ) < q.1 - a.1 := by linarith
  by_cases hb : xv ≤ b.1
  · simp only [interp]
    rw [if_pos hb, if_pos hb]
  by_cases ha : xv ≤ a.1
  · -- segment (b,a) against segment (b,q)
    have hq : xv ≤ q.1 := by linarith
    simp only [interp]
    rw [if_neg hb, if_neg hb, if_pos ha, if_pos hq, add_le_add_iff_left,
      div_le_div_iff₀ h1 h2]
    have key : (a.2 - b.2) * (q.1 - b.1) ≤ (q.2 - b.2) * (a.1 - b.1) := by
      nlinarith [hcross]
    nlinarith [mul_le_mul_of_nonneg_right key (by linarith : (0:ℚ) ≤ xv - b.1)]
  by_cases hq : xv ≤ q.1
  · -- segment (a,q) against segment (b,q)
    simp only [interp]
    rw [if_neg hb, if_neg hb, if_neg ha, if_neg ha, if_pos hq, if_pos hq]
    have e1 : a.2 + (q.2 - a.2) * (xv - a.1) / (q.1 - a.1) =
        (a.2 * (q.1 - a.1) + (q.2 - a.2) * (xv - a.1)) / (q.1 - a.1) := by
      field_simp
    have e2 : b.2 + (q.2 - b.2) * (xv - b.1) / (q.1 - b.1) =
        (b.2 * (q.1 - b.1) + (q.2 - b.2) * (xv - b.1)) / (q.1 - b.1) := by
      field_simp
    rw [e1, e2, div_le_div_iff₀ h3 h2]
    have hN : (0:ℚ) < (q.2 - a.2) * (q.1 - b.1) - (q.2 - b.2) * (q.1 - a.1) := by
      nlinarith [hcross]
    nlinarith [mul_nonneg (by linarith : (0:ℚ) ≤ q.1 - xv) (le_of_lt hN)]
  · -- both clamp to the last value
    simp only [interp]
    rw [if_neg hb, if_neg hb, if_neg ha, if_neg (by linarith : ¬ xv ≤ a.1),
      if_neg hq, if_neg hq]

/-- Popping points during the `while` loop can only raise the chain (with
the upcoming point appended): each pop drops the middle point of a strict
left turn. -/
theorem hullPop_interp_ge (p : Point) :
    ∀ s : List Point,
      s.Pairwise (fun u v : Point => v.1 < u.1) →
      (∀ q ∈ s, q.1 < p.1) →
      ∀ xv, interp xv (s.reverse ++ [p]) ≤
        interp xv ((hullPop upperPopCond p s).reverse ++ [p])
  | [], _, _, xv => by simp [hullPop]
  | [a], _, _, xv => by simp [hullPop]
  | a :: b :: t, hdesc, hgt, xv => by
    obtain ⟨ha, hdesc2⟩ := List.pairwise_cons.mp hdesc
    obtain ⟨htb, hdesc3⟩ := List.pairwise_cons.mp hdesc2
    have hba : b.1 < a.1 := ha b (by simp)
    have hap : a.1 < p.1 := hgt a (by simp)
    have hbp : b.1 < p.1 := hgt b (by simp)
    rw [hullPop]
    split_ifs with hcond
    · have hcross := (upperPopCond_eq_true_iff b a p hba hap).mp hcond
      have hstep : interp xv ((a :: b :: t).reverse ++ [p]) ≤
          interp xv ((b :: t).reverse ++ [p]) := by
        by_cases hxb : xv ≤ b.1
        · have e1 : (a :: b :: t).reverse ++ [p] =
              (t.reverse ++ [b]) ++ [a, p] := by simp
          have e2 : (b :: t).reverse ++ [p] =
              (t.reverse ++ [b]) ++ [p] := by simp
          have hlast : (t.reverse ++ [b]).getLast? = some b := by simp
          rw [e1, e2, interp_left_part xv _ _ b hlast hxb,
            interp_left_part xv _ _ b hlast hxb]
        · push_neg at hxb
          have e1 : (a :: b :: t).reverse ++ [p] =
              t.reverse ++ b :: [a, p] := by simp
          have e2 : (b :: t).reverse ++ [p] = t.reverse ++ b :: [p] := by simp
          have hml : ∀ q ∈ t.reverse, q.1 < xv := fun q hq =>
            lt_trans (htb q (by simpa using hq)) hxb
          rw [e1, e2, interp_skip xv t.reverse b [a, p] hml hxb,
            interp_skip xv t.reverse b [p] hml hxb]
          exact interp_three_le_two b a p xv hba hap hcross
      exact le_trans hstep
        (hullPop_interp_ge p (b :: t) hdesc2
          (fun q hq => hgt q (by simp [hq])) xv)
    · exact le_refl _

/-- The loop-iteration invariants are re-established by `hullStep` for the
remaining points. -/
theorem hullStep_inv (s : List Point) (p : Point) (rest : List Point)
    (hdesc : s.Pairwise (fun u v : Point => v.1 < u.1))
    (hgt : ∀ q ∈ s, ∀ p2 ∈ p :: rest, q.1 < p2.1)
    (hsort : (p :: rest).Pairwise (fun u v : Point => u.1 < v.1)) :
    (hullStep upperPopCond s p).head? = some p ∧
    (hullStep upperPopCond s p).Pairwise (fun u v : Point => v.1 < u.1) ∧
    (∀ q ∈ hullStep upperPopCond s p, ∀ p2 ∈ rest, q.1 < p2.1) := by
  have hsubset : ∀ q ∈ hullPop upperPopCond p s, q ∈ s := fun q hq =>
    (hullPop_suffix upperPopCond p s).sublist.subset hq
  refine ⟨rfl, ?_, ?_⟩
  · unfold hullStep
    rw [List.pairwise_cons]
    refine ⟨fun q hq => hgt q (hsubset q hq) p (by simp), ?_⟩
    exact hdesc.sublist (hullPop_suffix upperPopCond p s).sublist
  · intro q hq p2 hp2
    rcases (by simpa [hullStep] using hq :
        q = p ∨ q ∈ hullPop upperPopCond p s) with rfl | hq2
    · exact (List.pairwise_cons.mp hsort).1 p2 hp2
    · exact hgt q (hsubset q hq2) p2 (by simp [hp2])

/-- Across the whole `for` loop, the chain only moves up at abscissas at or
left of the current stack top. -/
theorem hullFold_interp_mono :
    ∀ (pts s : List Point) (h0 : Point), s.head? = some h0 →
      s.Pairwise (fun u v : Point => v.1 < u.1) →
      (∀ q ∈ s, ∀ p2 ∈ pts, q.1 < p2.1) →
      pts.Pairwise (fun u v : Point => u.1 < v.1) →
      ∀ xv, xv ≤ h0.1 →
        interp xv s.reverse ≤
          interp xv (hullFold upperPopCond s pts).reverse
  | [], s, h0, _, _, _, _, xv, _ => le_refl _
  | p :: rest, s, h0, hh, hdesc, hgt, hsort, xv, hxv => by
    show interp xv s.reverse ≤
      interp xv (hullFold upperPopCond (hullStep upperPopCond s p) rest).reverse
    have hglast : s.reverse.getLast? = some h0 := by
      rw [List.getLast?_reverse, hh]
    have h0mem : h0 ∈ s := List.mem_of_mem_head? hh
    have hp : h0.1 < p.1 := hgt h0 h0mem p (by simp)
    have e1 : interp xv s.reverse = interp xv (s.reverse ++ [p]) :=
      (interp_left_part xv s.reverse [p] h0 hglast hxv).symm
    have e2 : interp xv (s.reverse ++ [p]) ≤
        interp xv ((hullPop upperPopCond p s).reverse ++ [p]) :=
      hullPop_interp_ge p s hdesc (fun q hq => hgt q hq p (by simp)) xv
    obtain ⟨hh2, hdesc2, hgt2⟩ := hullStep_inv s p rest hdesc hgt hsort
    have hrec := hullFold_interp_mono rest (hullStep upperPopCond s p) p hh2
      hdesc2 hgt2 (List.pairwise_cons.mp hsort).2 xv (by linarith)
    have hstep_rev : (hullStep upperPopCond s p).reverse =
        (hullPop upperPopCond p s).reverse ++ [p] := by simp [hullStep]
    rw [hstep_rev] at hrec
    calc interp xv s.reverse = interp xv (s.reverse ++ [p]) := e1
      _ ≤ interp xv ((hullPop upperPopCond p s).reverse ++ [p]) := e2
      _ ≤ _ := hrec

/-- Every point processed by the `for` loop ends up below the final chain. -/
theorem hullFold_mem_below :
    ∀ (pts s : List Point) (h0 : Point), s.head? = some h0 →
      s.Pairwise (fun u v : Point => v.1 < u.1) →
      (∀ q ∈ s, ∀ p2 ∈ pts, q.1 < p2.1) →
      pts.Pairwise (fun u v : Point => u.1 < v.1) →
      ∀ p2 ∈ pts, p2.2 ≤ interp p2.1 (hullFold upperPopCond s pts).reverse
  | [], _, _, _, _, _, _, p2, hp2 => by simp at hp2
  | p :: rest, s, h0, hh, hdesc, hgt, hsort, p2, hp2 => by
    obtain ⟨hh2, hdesc2, hgt2⟩ := hullStep_inv s p rest hdesc hgt hsort
    rcases (by simpa using hp2 : p2 = p ∨ p2 ∈ rest) with rfl | hmem
    · show p2.2 ≤
        interp p2.1 (hullFold upperPopCond (hullStep upperPopCond s p2) rest).reverse
      have hpopx : ∀ q ∈ (hullPop upperPopCond p2 s).reverse, q.1 < p2.1 := by
        intro q hq
        exact hgt q
          ((hullPop_suffix upperPopCond p2 s).sublist.subset (by simpa using hq))
          p2 (by simp)
      have hstart : interp p2.1 (hullStep upperPopCond s p2).reverse = p2.2 := by
        have hstep_rev : (hullStep upperPopCond s p2).reverse =
            (hullPop upperPopCond p2 s).reverse ++ [p2] := by simp [hullStep]
        rw [hstep_rev]
        exact interp_getLast (hullPop upperPopCond p2 s).reverse p2 hpopx
      have hmono := hullFold_interp_mono rest (hullStep upperPopCond s p2) p2
        hh2 hdesc2 hgt2 (List.pairwise_cons.mp hsort).2 p2.1 le_rfl
      rw [hstart] at hmono
      exact hmono
    · exact hullFold_mem_below rest (hullStep upperPopCond s p) p hh2 hdesc2
        hgt2 (List.pairwise_cons.mp hsort).2 p2 hmem

/-- Envelope property of the upper hull loop: every input point lies on or
below the piecewise-linear interpolation of the produced hull chain. -/
theorem hullRun_envelope (pts : List Point)
    (hsort : pts.Pairwise (fun u v : Point => u.1 < v.1))
    (hlen : 2 ≤ pts.length) :
    ∀ p ∈ pts, p.2 ≤ interp p.1 (hullRun upperPopCond pts) := by
  match pts with
  | [] => simp at hlen
  | [p0] => simp at hlen
  | p0 :: p1 :: rest =>
    obtain ⟨h0all, hsort2⟩ := List.pairwise_cons.mp hsort
    obtain ⟨h1all, hsort3⟩ := List.pairwise_cons.mp hsort2
    have h01 : p0.1 < p1.1 := h0all p1 (by simp)
    have hseed_head : ([p1, p0] : List Point).head? = some p1 := rfl
    have hseed_desc : ([p1, p0] : List Point).Pairwise
        (fun u v : Point => v.1 < u.1) := by
      simp [List.pairwise_cons, h01]
    have hseed_gt : ∀ q ∈ ([p1, p0] : List Point), ∀ p2 ∈ rest, q.1 < p2.1 := by
      intro q hq p2 hp2
      rcases (by simpa using hq : q = p1 ∨ q = p0) with rfl | rfl
      · exact h1all p2 hp2
      · exact h0all p2 (by simp [hp2])
    intro p hp
    show p.2 ≤ interp p.1 (hullFold upperPopCond [p1, p0] rest).reverse
    rcases (by simpa using hp : p = p0 ∨ p = p1 ∨ p ∈ rest) with rfl | rfl | hmem
    · -- p is the first input point, at the bottom of the seed stack
      have hstart : interp p.1 (([p1, p] : List Point)).reverse = p.2 := by
        show interp p.1 [p, p1] = p.2
        simp only [interp]
        rw [if_pos le_rfl]
      have hmono := hullFold_interp_mono rest [p1, p] p1 hseed_head hseed_desc
        hseed_gt hsort3 p.1 (le_of_lt h01)
      rw [hstart] at hmono
      exact hmono
    · -- p is the second input point, at the top of the seed stack
      have hstart : interp p.1 (([p, p0] : List Point)).reverse = p.2 := by
        show interp p.1 ([p0] ++ [p]) = p.2
        exact interp_getLast [p0] p (by simpa using h01)
      have hmono := hullFold_interp_mono rest [p, p0] p hseed_head hseed_desc
        hseed_gt hsort3 p.1 le_rfl
      rw [hstart] at hmono
      exact hmono
    · exact hullFold_mem_below rest [p1, p0] p1 hseed_head hseed_desc hseed_gt
        hsort3 p hmem

/-! ## Claim theorems -/

/-- C3: on `x = [0,1,2,3,4]`, `y = [0,2,1,2,0]`, the upper hull builder
returns exactly hull `x = [0,1,3,4]` and hull `y = [0,2,2,0]`. -/
theorem C3_scenario_A_upper_hull :
    upper_convex_hull [0, 1, 2, 3, 4] [0, 2, 1, 2, 0] =
      .ok ([0, 1, 3, 4], [0, 2, 2, 0]) := by
  norm_num [upper_convex_hull, hullRun, hullFold, hullStep, hullPop,
    upperPopCond, left_turn_for_convex_hull, List.foldl, List.zip,
    List.zipWith]

/-- C8: continuum removal of scenario A with `left_inner = 0`,
`right_inner = 4`: the continuum value at `x = 2` (index 2 of the window)
is `2` and the ratio value there is `1/2`. -/
theorem C8_scenario_B_continuum_values :
    ∃ xw ry c : List ℚ,
      continuum_removal [0, 1, 2, 3, 4] [0, 2, 1, 2, 0] "uh" 0 0 4 4 =
        .ok (xw, ry, c) ∧
      xw.get? 2 = some 2 ∧ c.get? 2 = some 2 ∧ ry.get? 2 = some (1/2) := by
  refine ⟨[0, 1, 2, 3, 4], [0, 1, 1/2, 1, 0], [0, 2, 2, 2, 0], ?_, rfl, rfl, rfl⟩
  norm_num [continuum_removal, windowFilter, upper_convex_hull, hullRun,
    hullFold, hullStep, hullPop, upperPopCond, left_turn_for_convex_hull,
    interp, List.foldl, List.zip, List.zipWith, List.filter]

/-- C2 counterexample: an input of three exactly collinear points does NOT
reduce to two hull points — the strict-inequality predicate never fires on
a collinear triple, so the builder keeps all three points, middle
included. -/
theorem C2_counterexample_collinear_not_dropped :
    upper_convex_hull [0, 1, 2] [0, 1, 2] = .ok ([0, 1, 2], [0, 1, 2]) ∧
    ¬ (∀ hx hy : List ℚ,
        upper_convex_hull [0, 1, 2] [0, 1, 2] = .ok (hx, hy) →
        hx.length = 2) := by
  constructor
  · norm_num [upper_convex_hull, hullRun, hullFold, hullStep, hullPop,
      upperPopCond, left_turn_for_convex_hull, List.foldl, List.zip,
      List.zipWith]
  · intro h
    have h3 := h [0, 1, 2] [0, 1, 2] (by
      norm_num [upper_convex_hull, hullRun, hullFold, hullStep, hullPop,
        upperPopCond, left_turn_for_convex_hull, List.foldl, List.zip,
        List.zipWith])
    simp at h3

/-- C2 amended: for any valid input of three exactly collinear points, the
strict-inequality predicate yields no pop, so the builder keeps all three
points: the middle collinear point is NOT discarded and the hull has
exactly three points. -/
theorem C2_amended_collinear_middle_kept (x1 y1 x2 y2 x3 y3 : ℚ)
    (h12 : x1 < x2) (h23 : x2 < x3)
    (hcol : (y2 - y1) * (x3 - x2) = (y3 - y2) * (x2 - x1)) :
    upper_convex_hull [x1, x2, x3] [y1, y2, y3] =
      .ok ([x1, x2, x3], [y1, y2, y3]) := by
  have hs : (y2 - y1) / (x2 - x1) = (y3 - y2) / (x3 - x2) := by
    rw [div_eq_div_iff (by linarith) (by linarith)]
    linarith [hcol]
  simp [upper_convex_hull, hullRun, hullFold, hullStep, hullPop,
    upperPopCond, left_turn_for_convex_hull, List.foldl, List.zip,
    List.zipWith, hs]

/-- Witness for the amended C2 at the collinear triple (0,1), (1,2),
(2,3). -/
theorem C2_amended_collinear_middle_kept_witness :
    upper_convex_hull [0, 1, 2] [1, 2, 3] = .ok ([0, 1, 2], [1, 2, 3]) :=
  C2_amended_collinear_middle_kept 0 1 1 2 2 3 (by norm_num) (by norm_num)
    (by norm_num)

/-- C6: the hull builders fail exactly when the lengths differ (with
`ShapeError`, checked first) or the common length is at most 2 (with
`SizeError`); in particular equal length-2 inputs give `SizeError` and a
5-vs-4 length mismatch gives `ShapeError`. -/
theorem C6_hull_error_conditions :
    (∀ x y : List ℚ,
      (upper_convex_hull x y = .error .ShapeError ↔ x.length ≠ y.length) ∧
      (upper_convex_hull x y = .error .SizeError ↔
        x.length = y.length ∧ x.length ≤ 2) ∧
      ((∃ r, upper_convex_hull x y = .ok r) ↔
        x.length = y.length ∧ 2 < x.length) ∧
      (lower_convex_hull x y = .error .ShapeError ↔ x.length ≠ y.length) ∧
      (lower_convex_hull x y = .error .SizeError ↔
        x.length = y.length ∧ x.length ≤ 2) ∧
      ((∃ r, lower_convex_hull x y = .ok r) ↔
        x.length = y.length ∧ 2 < x.length)) ∧
    upper_convex_hull [0, 1] [0, 1] = .error .SizeError ∧
    upper_convex_hull [0, 1, 2, 3, 4] [0, 1, 2, 3] = .error .ShapeError := by
  refine ⟨fun x y => ?_, ?_, ?_⟩
  · unfold upper_convex_hull lower_convex_hull
    split_ifs with h1 h2 <;> simp_all
  · norm_num [upper_convex_hull]
  · norm_num [upper_convex_hull]

/-- C7: `continuum_removal` fails with `UnsupportedTypeError` exactly when
the continuum type is not `"uh"`; in particular type `"lh"` fails so. -/
theorem C7_unsupported_continuum_type :
    (∀ (x y : List ℚ) (t : String) (lo li ri ro : ℚ),
      continuum_removal x y t lo li ri ro = .error .UnsupportedTypeError ↔
        t ≠ "uh") ∧
    (∀ (x y : List ℚ) (lo li ri ro : ℚ),
      continuum_removal x y "lh" lo li ri ro =
        .error .UnsupportedTypeError) := by
  constructor
  · intro x y t lo li ri ro
    unfold continuum_removal
    by_cases ht : t = "uh"
    · simp only [ht, if_pos rfl]
      constructor
      · intro hcontra
        exfalso
        cases hh : upper_convex_hull
            ((windowFilter li ri x y).map Prod.fst)
            ((windowFilter li ri x y).map Prod.snd) with
        | error e =>
          rw [hh] at hcontra
          simp at hcontra
          exact upper_convex_hull_ne_unsupported _ _ (by rw [hh, hcontra])
        | ok r =>
          rw [hh] at hcontra
          obtain ⟨hx, hy⟩ := r
          simp at hcontra
      · intro hcontra; exact absurd rfl hcontra
    · simp [ht]
  · intro x y lo li ri ro
    simp [continuum_removal]

/-- C4: for every valid input (equal lengths, length > 2, x strictly
increasing), the hull returned by either builder is a subsequence of the
input point sequence (i.e. taken at strictly increasing original
positions), and the hull x values are strictly increasing. -/
theorem C4_hull_subsequence_monotone (x y : List ℚ)
    (hlen : x.length = y.length) (hn : 2 < x.length)
    (hsort : x.Pairwise (· < ·)) :
    (∀ hx hy, upper_convex_hull x y = .ok (hx, hy) →
      List.Sublist (hx.zip hy) (x.zip y) ∧ hx.Pairwise (· < ·)) ∧
    (∀ hx hy, lower_convex_hull x y = .ok (hx, hy) →
      List.Sublist (hx.zip hy) (x.zip y) ∧ hx.Pairwise (· < ·)) := by
  have hzip : (x.zip y).Pairwise (fun a b : Point => a.1 < b.1) := by
    have h1 : (x.zip y).map Prod.fst = x := List.map_fst_zip x y (le_of_eq hlen)
    rw [← h1] at hsort
    exact (List.pairwise_map).mp hsort
  have key : ∀ cond : Point → Point → Point → Bool, ∀ hx hy : List ℚ,
      hx = (hullRun cond (x.zip y)).map Prod.fst →
      hy = (hullRun cond (x.zip y)).map Prod.snd →
      List.Sublist (hx.zip hy) (x.zip y) ∧ hx.Pairwise (· < ·) := by
    intro cond hx hy hhx hhy
    have hzz : hx.zip hy = hullRun cond (x.zip y) := by
      rw [hhx, hhy, List.zip_map']
      simp
    have hsub : List.Sublist (hx.zip hy) (x.zip y) := by
      rw [hzz]; exact hullRun_sublist cond (x.zip y)
    refine ⟨hsub, ?_⟩
    have hp : (hullRun cond (x.zip y)).Pairwise (fun a b : Point => a.1 < b.1) :=
      hzip.sublist (hullRun_sublist cond (x.zip y))
    rw [hhx]
    exact (List.pairwise_map).mpr hp
  constructor
  · intro hx hy h
    unfold upper_convex_hull at h
    rw [if_neg (by omega), if_neg (by omega)] at h
    simp only [Except.ok.injEq, Prod.mk.injEq] at h
    exact key upperPopCond hx hy h.1.symm h.2.symm
  · intro hx hy h
    unfold lower_convex_hull at h
    rw [if_neg (by omega), if_neg (by omega)] at h
    simp only [Except.ok.injEq, Prod.mk.injEq] at h
    exact key lowerPopCond hx hy h.1.symm h.2.symm

/-- Witness for C4 at scenario A. -/
theorem C4_hull_subsequence_monotone_witness :
    (∀ hx hy, upper_convex_hull [0, 1, 2, 3, 4] [0, 2, 1, 2, 0] = .ok (hx, hy) →
      List.Sublist (hx.zip hy) (([0, 1, 2, 3, 4] : List ℚ).zip [0, 2, 1, 2, 0]) ∧
      hx.Pairwise (· < ·)) ∧
    (∀ hx hy, lower_convex_hull [0, 1, 2, 3, 4] [0, 2, 1, 2, 0] = .ok (hx, hy) →
      List.Sublist (hx.zip hy) (([0, 1, 2, 3, 4] : List ℚ).zip [0, 2, 1, 2, 0]) ∧
      hx.Pairwise (· < ·)) :=
  C4_hull_subsequence_monotone [0, 1, 2, 3, 4] [0, 2, 1, 2, 0] (by norm_num)
    (by norm_num) (by norm_num [List.pairwise_cons])

/-- C9: for every valid input, the first and last points of the returned
upper hull are the first and last input points, so the hull x extent
equals the window x extent. -/
theorem C9_hull_endpoints (x y : List ℚ) (hlen : x.length = y.length)
    (hn : 2 < x.length) :
    ∀ hx hy, upper_convex_hull x y = .ok (hx, hy) →
      hx.head? = x.head? ∧ hy.head? = y.head? ∧
      hx.getLast? = x.getLast? ∧ hy.getLast? = y.getLast? := by
  intro hx hy h
  unfold upper_convex_hull at h
  rw [if_neg (by omega), if_neg (by omega)] at h
  simp only [Except.ok.injEq, Prod.mk.injEq] at h
  have hxlen : 2 ≤ (x.zip y).length := by
    rw [List.length_zip]; omega
  obtain ⟨hh, hl⟩ := hullRun_head_getLast upperPopCond (x.zip y) hxlen
  have hfx : (x.zip y).map Prod.fst = x := List.map_fst_zip x y (le_of_eq hlen)
  have hfy : (x.zip y).map Prod.snd = y := List.map_snd_zip x y (ge_of_eq hlen)
  have h1 : x.head? = Option.map Prod.fst (x.zip y).head? := by
    conv_lhs => rw [← hfx]
    rw [List.head?_map]
  have h2 : y.head? = Option.map Prod.snd (x.zip y).head? := by
    conv_lhs => rw [← hfy]
    rw [List.head?_map]
  have h3 : x.getLast? = Option.map Prod.fst (x.zip y).getLast? := by
    conv_lhs => rw [← hfx]
    rw [List.getLast?_map]
  have h4 : y.getLast? = Option.map Prod.snd (x.zip y).getLast? := by
    conv_lhs => rw [← hfy]
    rw [List.getLast?_map]
  refine ⟨?_, ?_, ?_, ?_⟩
  · rw [← h.1, List.head?_map, hh]
    exact h1.symm
  · rw [← h.2, List.head?_map, hh]
    exact h2.symm
  · rw [← h.1, List.getLast?_map, hl]
    exact h3.symm
  · rw [← h.2, List.getLast?_map, hl]
    exact h4.symm

/-- Witness for C9 at scenario A: the concrete hull of scenario A starts
and ends at the window endpoints. -/
theorem C9_hull_endpoints_witness :
    ([0, 1, 3, 4] : List ℚ).head? = ([0, 1, 2, 3, 4] : List ℚ).head? ∧
    ([0, 2, 2, 0] : List ℚ).head? = ([0, 2, 1, 2, 0] : List ℚ).head? ∧
    ([0, 1, 3, 4] : List ℚ).getLast? = ([0, 1, 2, 3, 4] : List ℚ).getLast? ∧
    ([0, 2, 2, 0] : List ℚ).getLast? = ([0, 2, 1, 2, 0] : List ℚ).getLast? :=
  C9_hull_endpoints [0, 1, 2, 3, 4] [0, 2, 1, 2, 0] (by norm_num) (by norm_num)
    [0, 1, 3, 4] [0, 2, 2, 0]
    (by norm_num [upper_convex_hull, hullRun, hullFold, hullStep, hullPop,
      upperPopCond, left_turn_for_convex_hull, List.foldl, List.zip,
      List.zipWith])

/-- C10: for every valid input and either pop condition, throughout the
loop the stack holds between 2 and `k + 2` points after `k` full
iterations (hence never more than `n`), the stack the `while` loop leaves
behind before the `k`-th push holds between 1 and `n - 1` points (so the
push writes index `nh ≤ n - 1` of the preallocated arrays, in bounds, and
the pops only read positions `nh-2`, `nh-1` of a stack of size `nh ≥ 2`),
and the returned hull length is between 2 and `n` inclusive. -/
theorem C10_stack_and_hull_bounds (x y : List ℚ)
    (hlen : x.length = y.length) (hn : 2 < x.length)
    (p0 p1 : Point) (rest : List Point)
    (hzip : x.zip y = p0 :: p1 :: rest) :
    (∀ cond : Point → Point → Point → Bool,
      (∀ k, k ≤ rest.length →
        2 ≤ (hullFold cond [p1, p0] (rest.take k)).length ∧
        (hullFold cond [p1, p0] (rest.take k)).length ≤ k + 2 ∧
        k + 2 ≤ x.length) ∧
      (∀ k p, rest.get? k = some p →
        1 ≤ (hullPop cond p (hullFold cond [p1, p0] (rest.take k))).length ∧
        (hullPop cond p (hullFold cond [p1, p0] (rest.take k))).length + 1 ≤
          x.length)) ∧
    (∀ hx hy, upper_convex_hull x y = .ok (hx, hy) →
      2 ≤ hx.length ∧ hx.length ≤ x.length) ∧
    (∀ hx hy, lower_convex_hull x y = .ok (hx, hy) →
      2 ≤ hx.length ∧ hx.length ≤ x.length) := by
  have hzlen : (x.zip y).length = x.length := by
    rw [List.length_zip, hlen, Nat.min_self]
  have hrest : rest.length + 2 = x.length := by
    rw [← hzlen, hzip]
    simp only [List.length_cons]
  refine ⟨fun cond => ⟨fun k hk => ?_, fun k p hp => ?_⟩, ?_, ?_⟩
  · have hge := hullFold_length_ge_two cond (rest.take k) [p1, p0] (by simp)
    have hle := hullFold_length_le cond (rest.take k) [p1, p0]
    have htk : (rest.take k).length = k := by
      rw [List.length_take]
      omega
    simp only [List.length_cons, List.length_nil, htk] at hle
    exact ⟨hge, by omega, by omega⟩
  · have hklt : k < rest.length := by
      by_contra hcon
      rw [List.get?_eq_none.mpr (by omega)] at hp
      exact Option.noConfusion hp
    have hne : hullFold cond [p1, p0] (rest.take k) ≠ [] :=
      hullFold_ne_nil cond (rest.take k) [p1, p0] (by simp)
    have h1 := hullPop_length_pos cond p (hullFold cond [p1, p0] (rest.take k)) hne
    have h2 := hullPop_length_le cond p (hullFold cond [p1, p0] (rest.take k))
    have hle := hullFold_length_le cond (rest.take k) [p1, p0]
    have htk : (rest.take k).length = k := by
      rw [List.length_take]
      omega
    simp only [List.length_cons, List.length_nil, htk] at hle
    exact ⟨h1, by omega⟩
  · intro hx hy h
    unfold upper_convex_hull at h
    rw [if_neg (by omega), if_neg (by omega)] at h
    simp only [Except.ok.injEq, Prod.mk.injEq] at h
    obtain ⟨hb1, hb2⟩ := hullRun_length_bounds upperPopCond (x.zip y) (by omega)
    rw [← h.1, List.length_map]
    exact ⟨hb1, by omega⟩
  · intro hx hy h
    unfold lower_convex_hull at h
    rw [if_neg (by omega), if_neg (by omega)] at h
    simp only [Except.ok.injEq, Prod.mk.injEq] at h
    obtain ⟨hb1, hb2⟩ := hullRun_length_bounds lowerPopCond (x.zip y) (by omega)
    rw [← h.1, List.length_map]
    exact ⟨hb1, by omega⟩

/-- Witness for C10 at scenario A. -/
theorem C10_stack_and_hull_bounds_witness :
    (∀ cond : Point → Point → Point → Bool,
      (∀ k, k ≤ [((2 : ℚ), (1 : ℚ)), (3, 2), (4, 0)].length →
        2 ≤ (hullFold cond [(1, 2), (0, 0)]
          ([((2 : ℚ), (1 : ℚ)), (3, 2), (4, 0)].take k)).length ∧
        (hullFold cond [(1, 2), (0, 0)]
          ([((2 : ℚ), (1 : ℚ)), (3, 2), (4, 0)].take k)).length ≤ k + 2 ∧
        k + 2 ≤ ([0, 1, 2, 3, 4] : List ℚ).length) ∧
      (∀ k p, [((2 : ℚ), (1 : ℚ)), (3, 2), (4, 0)].get? k = some p →
        1 ≤ (hullPop cond p (hullFold cond [(1, 2), (0, 0)]
          ([((2 : ℚ), (1 : ℚ)), (3, 2), (4, 0)].take k))).length ∧
        (hullPop cond p (hullFold cond [(1, 2), (0, 0)]
          ([((2 : ℚ), (1 : ℚ)), (3, 2), (4, 0)].take k))).length + 1 ≤
          ([0, 1, 2, 3, 4] : List ℚ).length)) ∧
    (∀ hx hy, upper_convex_hull [0, 1, 2, 3, 4] [0, 2, 1, 2, 0] = .ok (hx, hy) →
      2 ≤ hx.length ∧ hx.length ≤ ([0, 1, 2, 3, 4] : List ℚ).length) ∧
    (∀ hx hy, lower_convex_hull [0, 1, 2, 3, 4] [0, 2, 1, 2, 0] = .ok (hx, hy) →
      2 ≤ hx.length ∧ hx.length ≤ ([0, 1, 2, 3, 4] : List ℚ).length) :=
  C10_stack_and_hull_bounds [0, 1, 2, 3, 4] [0, 2, 1, 2, 0] (by norm_num)
    (by norm_num) (0, 0) (1, 2) [(2, 1), (3, 2), (4, 0)] rfl

/-- C5: with continuum type `"uh"`, the window is exactly the sub-range
where `left_inner ≤ x ≤ right_inner`, and the result never depends on the
outer bound arguments. -/
theorem C5_window_selection_outer_unused :
    (∀ (x y : List ℚ) (lo li ri ro : ℚ) (xw ry c : List ℚ),
      x.length = y.length →
      continuum_removal x y "uh" lo li ri ro = .ok (xw, ry, c) →
      xw = x.filter (fun v => decide (li ≤ v) && decide (v ≤ ri))) ∧
    (∀ (x y : List ℚ) (t : String) (lo li ri ro lo2 ro2 : ℚ),
      continuum_removal x y t lo li ri ro =
        continuum_removal x y t lo2 li ri ro2) := by
  constructor
  · intro x y lo li ri ro xw ry c hlen h
    unfold continuum_removal at h
    rw [if_pos rfl] at h
    cases hh : upper_convex_hull
        ((windowFilter li ri x y).map Prod.fst)
        ((windowFilter li ri x y).map Prod.snd) with
    | error e =>
      rw [hh] at h
      simp at h
    | ok r =>
      obtain ⟨hullx, hully⟩ := r
      rw [hh] at h
      simp only [Except.ok.injEq, Prod.mk.injEq] at h
      rw [← h.1]
      unfold windowFilter
      exact map_fst_zip_filter x y
        (fun v => decide (li ≤ v) && decide (v ≤ ri)) hlen
  · intro x y t lo li ri ro lo2 ro2
    rfl

/-- Witness for C5 at scenario B. -/
theorem C5_window_selection_outer_unused_witness :
    ([0, 1, 2, 3, 4] : List ℚ) =
      ([0, 1, 2, 3, 4] : List ℚ).filter
        (fun v => decide ((0 : ℚ) ≤ v) && decide (v ≤ 4)) :=
  C5_window_selection_outer_unused.1 [0, 1, 2, 3, 4] [0, 2, 1, 2, 0] 0 0 4 4
    [0, 1, 2, 3, 4] [0, 1, 1/2, 1, 0] [0, 2, 2, 2, 0] (by norm_num)
    (by norm_num [continuum_removal, windowFilter, upper_convex_hull,
      hullRun, hullFold, hullStep, hullPop, upperPopCond,
      left_turn_for_convex_hull, interp, List.foldl, List.zip,
      List.zipWith, List.filter])

/-- C1: for every window satisfying the hull preconditions (equal lengths
by construction, window length > 2, x strictly increasing), the continuum
produced by `continuum_removal` with type `"uh"` is `≥` the windowed `y`
at every windowed point, and every `ratio_y` value is `≤ 1` at every index
where the continuum is strictly positive. -/
theorem C1_continuum_envelope_ratio (x y : List ℚ) (lo li ri ro : ℚ)
    (hlen : x.length = y.length) (hsort : x.Pairwise (· < ·))
    (hwin : 2 < (windowFilter li ri x y).length) :
    ∃ ry c : List ℚ,
      continuum_removal x y "uh" lo li ri ro =
        .ok ((windowFilter li ri x y).map Prod.fst, ry, c) ∧
      ∀ i : ℕ, ∀ pt ∈ (windowFilter li ri x y).get? i, ∀ ci ∈ c.get? i,
        pt.2 ≤ ci ∧ (0 < ci → ∀ r ∈ ry.get? i, r ≤ 1) := by
  have hzsort : (x.zip y).Pairwise (fun a b : Point => a.1 < b.1) := by
    have h1 : (x.zip y).map Prod.fst = x := List.map_fst_zip x y (le_of_eq hlen)
    rw [← h1] at hsort
    exact (List.pairwise_map).mp hsort
  have hwsub : List.Sublist (windowFilter li ri x y) (x.zip y) := by
    unfold windowFilter
    exact List.filter_sublist _
  have hwsort : (windowFilter li ri x y).Pairwise
      (fun a b : Point => a.1 < b.1) := hzsort.sublist hwsub
  have hzipw : ((windowFilter li ri x y).map Prod.fst).zip
      ((windowFilter li ri x y).map Prod.snd) = windowFilter li ri x y := by
    rw [List.zip_map']
    simp
  have hok : upper_convex_hull ((windowFilter li ri x y).map Prod.fst)
      ((windowFilter li ri x y).map Prod.snd) =
      .ok ((hullRun upperPopCond (windowFilter li ri x y)).map Prod.fst,
        (hullRun upperPopCond (windowFilter li ri x y)).map Prod.snd) := by
    unfold upper_convex_hull
    rw [if_neg (by simp), if_neg (by simp; omega), hzipw]
  have henv := hullRun_envelope (windowFilter li ri x y) hwsort (by omega)
  refine ⟨(windowFilter li ri x y).map (fun pt =>
      pt.2 / interp pt.1 (hullRun upperPopCond (windowFilter li ri x y))),
    (windowFilter li ri x y).map (fun pt =>
      interp pt.1 (hullRun upperPopCond (windowFilter li ri x y))), ?_, ?_⟩
  · unfold continuum_removal
    rw [if_pos rfl, hok]
    simp [List.zip_map', List.map_map, Function.comp, Prod.mk.eta]
  · intro i pt hpt ci hci
    have hpt2 : (windowFilter li ri x y).get? i = some pt := hpt
    have hci2 : ci = interp pt.1 (hullRun upperPopCond (windowFilter li ri x y)) := by
      have h3 : ((windowFilter li ri x y).map (fun pt =>
          interp pt.1 (hullRun upperPopCond (windowFilter li ri x y)))).get? i =
          some ci := hci
      rw [List.get?_map, hpt2] at h3
      simpa using h3.symm
    have hbelow : pt.2 ≤ ci := by
      rw [hci2]
      exact henv pt (List.get?_mem hpt2)
    refine ⟨hbelow, fun hpos r hr => ?_⟩
    have h4 : ((windowFilter li ri x y).map (fun pt =>
        pt.2 / interp pt.1
          (hullRun upperPopCond (windowFilter li ri x y)))).get? i =
        some r := hr
    rw [List.get?_map, hpt2] at h4
    have h5 : pt.2 / interp pt.1
        (hullRun upperPopCond (windowFilter li ri x y)) = r := by
      simpa using h4
    rw [← h5, ← hci2]
    exact (div_le_one hpos).mpr hbelow

/-- Witness for C1 at scenario B. -/
theorem C1_continuum_envelope_ratio_witness :
    ∃ ry c : List ℚ,
      continuum_removal [0, 1, 2, 3, 4] [0, 2, 1, 2, 0] "uh" 0 0 4 4 =
        .ok ((windowFilter 0 4 [0, 1, 2, 3, 4] [0, 2, 1, 2, 0]).map Prod.fst,
          ry, c) ∧
      ∀ i : ℕ, ∀ pt ∈ (windowFilter 0 4 [0, 1, 2, 3, 4] [0, 2, 1, 2, 0]).get? i,
        ∀ ci ∈ c.get? i,
        pt.2 ≤ ci ∧ (0 < ci → ∀ r ∈ ry.get? i, r ≤ 1) :=
  C1_continuum_envelope_ratio [0, 1, 2, 3, 4] [0, 2, 1, 2, 0] 0 0 4 4
    (by norm_num) (by norm_num [List.pairwise_cons])
    (by norm_num [windowFilter, List.zip, List.zipWith, List.filter])

end SpectralMatching
